import Mathlib

/-!
Verification of the lab04 computational-social-choice code
(ballot.py, algorithms.py, tactical_voting.py) against its specification.

Shallow embedding conventions:
* Python strings are Lean `String`; candidate names are strings.
* A Python function that can raise `ValueError` is embedded as an
  `Except String` value carrying the error message.
* The head-to-head dictionary keyed by ordered candidate pairs is embedded
  as a guarded lookup function returning `Option Nat` (a missing key is
  `none`); the value it stores at an in-domain key `(a, b)` is the pure
  count `countPrefers ballots a b`, and the Schulze code, whose dictionary
  reads are all at in-domain keys, is embedded directly through that count.
* The Schulze strength dictionary `p` is embedded as a function
  `String × String → Nat` updated pointwise, and the three nested `for`
  loops of the closure are embedded as left folds in the same order.
-/

namespace Lab04

/-- Embedding of class `Ballot` (ballot.py): the stored `self.ranking`
tuple.  Python `__eq__`/`__hash__` compare rankings, which is exactly
structural equality here. -/
structure Ballot where
  ranking : List String
deriving DecidableEq

/-- Embedding of `Ballot.__init__` (ballot.py lines 24-39): rejects an
empty ranking and a ranking with duplicates (Python compares
`len(ranking)` with `len(set(ranking))`; the size of the set is the
length of `dedup`), otherwise stores the ranking. -/
def mkBallot (ranking : List String) : Except String Ballot :=
  if ranking.isEmpty then Except.error "Ranking cannot be empty"
  else if ranking.length ≠ ranking.dedup.length then
    Except.error "Ranking contains duplicate candidates"
  else Except.ok ⟨ranking⟩

/-- Embedding of `Ballot.prefers` (ballot.py lines 41-62): errors when
either candidate is missing from the ranking, otherwise compares the
first-occurrence indices. -/
def Ballot.prefers (b : Ballot) (cand_a cand_b : String) : Except String Bool :=
  if cand_a ∉ b.ranking then Except.error "Candidate not in ballot"
  else if cand_b ∉ b.ranking then Except.error "Candidate not in ballot"
  else Except.ok (decide (b.ranking.indexOf cand_a < b.ranking.indexOf cand_b))

/-- The inner counting loop of `get_head_to_head_matrix` (algorithms.py
lines 42-45): the number of ballots on which `prefers cand_a cand_b`
returns true.  (On a valid election input `prefers` never raises, so a
ballot is counted exactly when it ranks `cand_a` above `cand_b`.) -/
def countPrefers (ballots : List Ballot) (cand_a cand_b : String) : Nat :=
  ballots.countP (fun b =>
    match b.prefers cand_a cand_b with
    | Except.ok r => r
    | Except.error _ => false)

/-- Embedding of `get_head_to_head_matrix` (algorithms.py lines 14-49):
the dictionary holds a key `(cand_a, cand_b)` exactly for ordered pairs
of distinct candidates, and stores the count of ballots preferring
`cand_a` to `cand_b`. -/
def get_head_to_head_matrix (ballots : List Ballot) (candidates : List String)
    (cand_a cand_b : String) : Option Nat :=
  if cand_a ∈ candidates ∧ cand_b ∈ candidates ∧ cand_a ≠ cand_b then
    some (countPrefers ballots cand_a cand_b)
  else none

/-- The initial strength `p[(i, j)]` of the Schulze method (algorithms.py
lines 171-179): the head-to-head count of `i` over `j` when `i` defeats
`j` head-to-head, else `0`. -/
def directStrength (ballots : List Ballot) (i j : String) : Nat :=
  if countPrefers ballots j i < countPrefers ballots i j then countPrefers ballots i j
  else 0

/-- Pointwise update of the strength dictionary, `p[(i, j)] = v`. -/
def updPair (p : String × String → Nat) (i j : String) (v : Nat) :
    String × String → Nat :=
  fun q => if q = (i, j) then v else p q

/-- The innermost loop of the Schulze closure (algorithms.py lines
186-194): for a fixed intermediate `k` and fixed `i`, fold over the
`cand_j` list, skipping `j = i` and `j = k`, and relax `p[(i, j)]`
through `k`. -/
def schulzeInner (k i : String) (p : String × String → Nat)
    (js : List String) : String × String → Nat :=
  js.foldl (fun p j =>
    if j = i ∨ j = k then p
    else updPair p i j (max (p (i, j)) (min (p (i, k)) (p (k, j))))) p

/-- The middle loop of the Schulze closure (algorithms.py lines 183-194):
fold over the `cand_i` list, skipping `i = k`. -/
def schulzeMiddle (js : List String) (k : String) (p : String × String → Nat)
    (is : List String) : String × String → Nat :=
  is.foldl (fun p i => if i = k then p else schulzeInner k i p js) p

/-- The outer loop of the Schulze closure (algorithms.py lines 182-194):
fold over the intermediate candidates `cand_k`. -/
def schulzeClosure (candidates : List String) (p : String × String → Nat) :
    String × String → Nat :=
  candidates.foldl (fun p k => schulzeMiddle candidates k p candidates) p

/-- The strength dictionary `p` of `schulze` after the closure loop
(algorithms.py lines 165-194): direct-defeat initialization followed by
the triple closure loop. -/
def schulzeStrength (ballots : List Ballot) (candidates : List String) :
    String × String → Nat :=
  schulzeClosure candidates (fun q => directStrength ballots q.1 q.2)

/-- The scores dictionary of `schulze` (algorithms.py lines 198-203):
`scores[i]` counts the candidates `j ≠ i` with `p[(i, j)] > p[(j, i)]`. -/
def schulzeScore (ballots : List Ballot) (candidates : List String) (i : String) : Nat :=
  candidates.countP (fun j => decide (i ≠ j) &&
    decide (schulzeStrength ballots candidates (j, i) <
            schulzeStrength ballots candidates (i, j)))

/-- Embedding of `schulze` (algorithms.py lines 134-209).  Returns `none`
exactly when Python raises (a `max()` over an empty scores dictionary,
i.e. an empty candidate list); otherwise returns the winners list and the
scores dictionary as an association list in candidate order. -/
def schulze (ballots : List Ballot) (candidates : List String) :
    Option (List String × List (String × Nat)) :=
  match (candidates.map (schulzeScore ballots candidates)).max? with
  | none => none
  | some max_score =>
      some (candidates.filter (fun c => schulzeScore ballots candidates c == max_score),
            candidates.map (fun c => (c, schulzeScore ballots candidates c)))

/-- Modelled from the spec: `find_condorcet_winner` (algorithms.py lines
52-74) is an unimplemented stub in the source (its body raises
`NotImplementedError`).  Spec section 4.3: a candidate `C` wins iff for
every other candidate `D`, `count(C, D) > count(D, C)`; the detector may
short-circuit on the first qualifying candidate and returns "no winner"
(`none`) when no candidate qualifies. -/
def find_condorcet_winner (ballots : List Ballot) (candidates : List String) :
    Option String :=
  candidates.find? (fun c =>
    candidates.all (fun d =>
      d == c || decide (countPrefers ballots d c < countPrefers ballots c d)))

/-- Embedding of `aggregate_ballot_types` (ballot.py lines 90-113)
composed with the dictionary lookup `type_counts.get(voter_type, 0)`
(tactical_voting.py line 38): the dictionary built by the counting loop
maps each ballot value to its multiplicity, so the lookup is `count`. -/
def aggregate_ballot_types (ballots : List Ballot) (b : Ballot) : Nat :=
  ballots.count b

/-- Embedding of `simulate_election_with_modified_ballots`
(tactical_voting.py lines 13-55).  The voting system is an arbitrary
total function parameter (a `Callable` in the source); `Ballot(new_ranking)`
can raise, which propagates as `Except.error`. -/
def simulate_election_with_modified_ballots {α : Type}
    (original_ballots : List Ballot) (voter_type : Ballot)
    (new_ranking : List String) (voting_system : List Ballot → List String → α)
    (candidates : List String) : Except String α :=
  let num_of_type := aggregate_ballot_types original_ballots voter_type
  if num_of_type = 0 then
    Except.ok (voting_system original_ballots candidates)
  else
    match mkBallot new_ranking with
    | Except.error e => Except.error e
    | Except.ok new_ballot =>
        Except.ok (voting_system
          (original_ballots.map (fun b => if b = voter_type then new_ballot else b))
          candidates)

/-- Embedding of `is_better_outcome` (tactical_voting.py lines 117-144):
`none` when one of the two `min(...)` generators is empty (Python raises
`ValueError`); the generators filter the winners to those present in the
true ranking and take `true_ranking.index`. -/
def is_better_outcome (true_ranking original_winners new_winners : List String) :
    Option Bool :=
  match ((original_winners.filter (fun w => true_ranking.contains w)).map
      (fun w => true_ranking.indexOf w)).min? with
  | none => none
  | some original_best_position =>
    match ((new_winners.filter (fun w => true_ranking.contains w)).map
        (fun w => true_ranking.indexOf w)).min? with
    | none => none
    | some new_best_position =>
        some (decide (new_best_position < original_best_position))

/-- Strength of the directed path `a :: mid ++ [b]` under hop weight `w`:
the minimum single-hop weight along the path. -/
def pathStrength (w : String → String → Nat) : String → List String → String → Nat
  | a, [], b => w a b
  | a, x :: xs, b => min (w a x) (pathStrength w x xs b)

/-- Every distinct pair of candidates has a directed path (its
intermediate vertices drawn from `ks`) whose strength equals the stored
strength `p`. -/
def SoundPaths (w : String → String → Nat) (cands ks : List String)
    (p : String × String → Nat) : Prop :=
  ∀ a ∈ cands, ∀ b ∈ cands, a ≠ b →
    ∃ mid, (∀ x ∈ mid, x ∈ ks) ∧ pathStrength w a mid b = p (a, b)

/-- Every directed path with intermediate vertices drawn from `ks` has
strength at most the stored strength `p`. -/
def CompletePaths (w : String → String → Nat) (cands ks : List String)
    (p : String × String → Nat) : Prop :=
  ∀ a ∈ cands, ∀ b ∈ cands, a ≠ b →
    ∀ mid, (∀ x ∈ mid, x ∈ ks) → pathStrength w a mid b ≤ p (a, b)

example : countPrefers [⟨["A", "B"]⟩] "A" "B" = 1 := by decide
example : countPrefers [⟨["A", "B"]⟩] "B" "A" = 0 := by decide
example : schulze [⟨["A", "B"]⟩] ["A", "B"] =
    some (["A"], [("A", 1), ("B", 0)]) := by decide
example : find_condorcet_winner [⟨["A", "B"]⟩] ["A", "B"] = some "A" := by decide

/-! Helper lemmas shared between several claims. -/

theorem dedup_length_eq_iff (r : List String) : r.length = r.dedup.length ↔ r.Nodup := by
  constructor
  · intro h
    exact List.dedup_eq_self.mp ((List.dedup_sublist r).eq_of_length h.symm)
  · intro h
    rw [List.dedup_eq_self.mpr h]

theorem mkBallot_error_iff (r : List String) :
    (∃ e, mkBallot r = Except.error e) ↔ (r = [] ∨ ¬ r.Nodup) := by
  constructor
  · rintro ⟨e, he⟩
    by_cases h1 : r = []
    · exact Or.inl h1
    · right
      intro hnd
      have hlen : r.length = r.dedup.length := (dedup_length_eq_iff r).mpr hnd
      simp [mkBallot, h1, hlen] at he
  · rintro (h | h)
    · exact ⟨"Ranking cannot be empty", by simp [mkBallot, h]⟩
    · refine ⟨"Ranking contains duplicate candidates", ?_⟩
      have hlen : r.length ≠ r.dedup.length := fun hl => h ((dedup_length_eq_iff r).mp hl)
      by_cases h1 : r = []
      · exact absurd (h1 ▸ List.nodup_nil) h
      · simp [mkBallot, h1, hlen]

theorem mkBallot_ok (r : List String) (hne : r ≠ []) (hnd : r.Nodup) :
    mkBallot r = Except.ok ⟨r⟩ := by
  have hlen : r.length = r.dedup.length := (dedup_length_eq_iff r).mpr hnd
  simp [mkBallot, hne, hlen]

/-- When both candidates occur in the ranking, `prefers` reduces to the
index comparison. -/
theorem prefers_ok_of_mem (b : Ballot) (x y : String) (hx : x ∈ b.ranking)
    (hy : y ∈ b.ranking) :
    b.prefers x y = Except.ok (decide (b.ranking.indexOf x < b.ranking.indexOf y)) := by
  simp [Ballot.prefers, hx, hy]

/-! Theorems for the individual claims. -/

/-- C9: `Ballot` construction fails exactly on an empty or
duplicate-containing ranking, and otherwise stores exactly the given
sequence as the ballot's ranking. -/
theorem ballot_construction_spec (r : List String) :
    ((∃ e, mkBallot r = Except.error e) ↔ (r = [] ∨ ¬ r.Nodup)) ∧
    (r ≠ [] → r.Nodup → mkBallot r = Except.ok ⟨r⟩) :=
  ⟨mkBallot_error_iff r, fun hne hnd => mkBallot_ok r hne hnd⟩

/-- Witness for C9 at the concrete rankings `["A"]` and `[]`. -/
theorem ballot_construction_spec_witness :
    mkBallot ["A"] = Except.ok ⟨["A"]⟩ ∧ (∃ e, mkBallot ([] : List String) = Except.error e) :=
  ⟨(ballot_construction_spec ["A"]).2 (by decide) (by decide),
   (ballot_construction_spec []).1.mpr (Or.inl rfl)⟩

/-- C8: on a duplicate-free ballot containing both candidates, `prefers`
returns true exactly when the first candidate occupies an earlier
position of the ranking than the second, and it errors exactly when one
of the two candidates is absent from the ranking. -/
theorem prefers_spec (b : Ballot) (cand_a cand_b : String) (hnd : b.ranking.Nodup) :
    (cand_a ∈ b.ranking → cand_b ∈ b.ranking →
      (b.prefers cand_a cand_b = Except.ok true ↔
        ∃ i j : Fin b.ranking.length,
          b.ranking.get i = cand_a ∧ b.ranking.get j = cand_b ∧ (i : Nat) < (j : Nat))) ∧
    ((∃ e, b.prefers cand_a cand_b = Except.error e) ↔
      (cand_a ∉ b.ranking ∨ cand_b ∉ b.ranking)) := by
  constructor
  · intro ha hb
    rw [prefers_ok_of_mem b cand_a cand_b ha hb]
    constructor
    · intro h
      have hlt : b.ranking.indexOf cand_a < b.ranking.indexOf cand_b := by
        simpa using h
      exact ⟨⟨b.ranking.indexOf cand_a, List.indexOf_lt_length.mpr ha⟩,
             ⟨b.ranking.indexOf cand_b, List.indexOf_lt_length.mpr hb⟩,
             List.indexOf_get _, List.indexOf_get _, hlt⟩
    · rintro ⟨i, j, hi, hj, hij⟩
      have hia : b.ranking.indexOf cand_a = (i : Nat) := by
        rw [← hi, List.get_eq_getElem]
        exact List.indexOf_getElem hnd i.1 i.2
      have hjb : b.ranking.indexOf cand_b = (j : Nat) := by
        rw [← hj, List.get_eq_getElem]
        exact List.indexOf_getElem hnd j.1 j.2
      simp [hia, hjb, hij]
  · by_cases ha : cand_a ∈ b.ranking
    · by_cases hb : cand_b ∈ b.ranking
      · simp [Ballot.prefers, ha, hb]
      · simp [Ballot.prefers, ha, hb]
    · simp [Ballot.prefers, ha]

/-- Witness for C8 on the concrete ballot `A > B`. -/
theorem prefers_spec_witness :
    (Ballot.mk ["A", "B"]).prefers "A" "B" = Except.ok true :=
  ((prefers_spec ⟨["A", "B"]⟩ "A" "B" (by decide)).1 (by decide) (by decide)).mpr
    ⟨⟨0, by decide⟩, ⟨1, by decide⟩, rfl, rfl, by decide⟩

/-- C3: on ballots that are strict total orders containing both
candidates, the two head-to-head entries of a pair of distinct
candidates are present and sum to the number of ballots. -/
theorem head_to_head_pair_total (ballots : List Ballot) (candidates : List String)
    (A B : String) (hA : A ∈ candidates) (hB : B ∈ candidates) (hAB : A ≠ B)
    (hb : ∀ bl ∈ ballots, bl.ranking.Nodup ∧ A ∈ bl.ranking ∧ B ∈ bl.ranking) :
    ∃ m m', get_head_to_head_matrix ballots candidates A B = some m ∧
      get_head_to_head_matrix ballots candidates B A = some m' ∧
      m + m' = ballots.length := by
  refine ⟨countPrefers ballots A B, countPrefers ballots B A, ?_, ?_, ?_⟩
  · simp [get_head_to_head_matrix, hA, hB, hAB]
  · simp [get_head_to_head_matrix, hA, hB, Ne.symm hAB]
  · unfold countPrefers
    have hc : (ballots.countP fun bl =>
        match bl.prefers B A with | Except.ok r => r | Except.error _ => false) =
        ballots.countP fun bl =>
          ¬ (match bl.prefers A B with | Except.ok r => r | Except.error _ => false) = true := by
      apply List.countP_congr
      intro bl hbl
      obtain ⟨_, haA, haB⟩ := hb bl hbl
      rw [prefers_ok_of_mem bl A B haA haB, prefers_ok_of_mem bl B A haB haA]
      have hne : bl.ranking.indexOf A ≠ bl.ranking.indexOf B :=
        fun h => hAB ((List.indexOf_inj haA haB).mp h)
      simp only [decide_eq_true_eq]
      constructor
      · intro h
        omega
      · intro h
        simp only [decide_eq_true_eq] at h
        omega
    rw [hc]
    exact (List.length_eq_countP_add_countP
      (fun bl => match bl.prefers A B with | Except.ok r => r | Except.error _ => false)
      ballots).symm

/-- Witness for C3 on a concrete two-candidate, three-ballot election. -/
theorem head_to_head_pair_total_witness :
    ∃ m m', get_head_to_head_matrix [⟨["A", "B"]⟩, ⟨["B", "A"]⟩, ⟨["A", "B"]⟩]
        ["A", "B"] "A" "B" = some m ∧
      get_head_to_head_matrix [⟨["A", "B"]⟩, ⟨["B", "A"]⟩, ⟨["A", "B"]⟩]
        ["A", "B"] "B" "A" = some m' ∧
      m + m' = 3 :=
  head_to_head_pair_total [⟨["A", "B"]⟩, ⟨["B", "A"]⟩, ⟨["A", "B"]⟩] ["A", "B"]
    "A" "B" (by decide) (by decide) (by decide) (by decide)

/-- C5: when both winner lists are non-empty and contained in the true
ranking, `is_better_outcome` succeeds and returns exactly the comparison
of the minimal true-ranking positions attained by the two winner sets. -/
theorem is_better_outcome_spec (t o n : List String) (ho : o ≠ []) (hn : n ≠ [])
    (hom : ∀ w ∈ o, w ∈ t) (hnm : ∀ w ∈ n, w ∈ t) :
    ∃ po pn, (o.map (fun w => t.indexOf w)).min? = some po ∧
      (n.map (fun w => t.indexOf w)).min? = some pn ∧
      is_better_outcome t o n = some (decide (pn < po)) := by
  have hfo : o.filter (fun w => t.contains w) = o :=
    List.filter_eq_self.mpr (fun a ha => by simpa using hom a ha)
  have hfn : n.filter (fun w => t.contains w) = n :=
    List.filter_eq_self.mpr (fun a ha => by simpa using hnm a ha)
  have hmo : (o.map (fun w => t.indexOf w)).min? ≠ none := by
    simp [List.min?_eq_none_iff, ho]
  have hmn : (n.map (fun w => t.indexOf w)).min? ≠ none := by
    simp [List.min?_eq_none_iff, hn]
  obtain ⟨po, hpo⟩ := Option.ne_none_iff_exists'.mp hmo
  obtain ⟨pn, hpn⟩ := Option.ne_none_iff_exists'.mp hmn
  refine ⟨po, pn, hpo, hpn, ?_⟩
  unfold is_better_outcome
  rw [hfo, hfn, hpo, hpn]

/-- Witness for C5 on concrete winner lists. -/
theorem is_better_outcome_spec_witness :
    ∃ po pn, ((["C"] : List String).map (fun w => (["A", "B", "C"] : List String).indexOf w)).min? = some po ∧
      ((["B", "C"] : List String).map (fun w => (["A", "B", "C"] : List String).indexOf w)).min? = some pn ∧
      is_better_outcome ["A", "B", "C"] ["C"] ["B", "C"] = some (decide (pn < po)) :=
  is_better_outcome_spec ["A", "B", "C"] ["C"] ["B", "C"]
    (by decide) (by decide) (by decide) (by decide)

/-- The absent-voter-type branch of the simulation (tactical_voting.py
lines 40-42), shared by C6 and C10. -/
theorem simulate_absent {α : Type} (bs : List Ballot) (vt : Ballot) (nr : List String)
    (f : List Ballot → List String → α) (cs : List String) (h : vt ∉ bs) :
    simulate_election_with_modified_ballots bs vt nr f cs = Except.ok (f bs cs) := by
  have hc : aggregate_ballot_types bs vt = 0 := List.count_eq_zero.mpr h
  simp [simulate_election_with_modified_ballots, hc]

/-- C6: if no ballot equals the voter type, the simulation returns the
result of the voting rule on the unmodified ballots. -/
theorem simulate_absent_type_is_noop {α : Type} (bs : List Ballot) (vt : Ballot)
    (nr : List String) (f : List Ballot → List String → α) (cs : List String)
    (h : vt ∉ bs) :
    simulate_election_with_modified_ballots bs vt nr f cs = Except.ok (f bs cs) :=
  simulate_absent bs vt nr f cs h

/-- Witness for C6: a voter type absent from a one-ballot election. -/
theorem simulate_absent_type_is_noop_witness :
    simulate_election_with_modified_ballots [⟨["A", "B"]⟩] ⟨["B", "A"]⟩ []
      (fun b _ => b.length) ["A", "B"] = Except.ok 1 :=
  simulate_absent_type_is_noop [⟨["A", "B"]⟩] ⟨["B", "A"]⟩ []
    (fun b _ => b.length) ["A", "B"] (by decide)

/-- C10: the new ranking is validated only when the voter type occurs in
the ballots; with the type absent even an invalid new ranking causes no
error, and with the type present the simulation errors exactly on an
empty or duplicate-containing new ranking. -/
theorem simulate_validation_gated {α : Type} (bs : List Ballot) (vt : Ballot)
    (nr : List String) (f : List Ballot → List String → α) (cs : List String) :
    (vt ∉ bs → simulate_election_with_modified_ballots bs vt nr f cs = Except.ok (f bs cs)) ∧
    (vt ∈ bs →
      ((∃ e, simulate_election_with_modified_ballots bs vt nr f cs = Except.error e) ↔
        (nr = [] ∨ ¬ nr.Nodup))) := by
  constructor
  · exact fun h => simulate_absent bs vt nr f cs h
  · intro hmem
    have hc : ¬ (aggregate_ballot_types bs vt = 0) :=
      fun h0 => (List.count_eq_zero.mp h0) hmem
    rcases hmk : mkBallot nr with e | nb
    · have hrhs : nr = [] ∨ ¬ nr.Nodup := (mkBallot_error_iff nr).mp ⟨e, hmk⟩
      refine iff_of_true ⟨e, ?_⟩ hrhs
      simp [simulate_election_with_modified_ballots, hc, hmk]
    · refine iff_of_false ?_ ?_
      · rintro ⟨e, he⟩
        simp [simulate_election_with_modified_ballots, hc, hmk] at he
      · intro hbad
        obtain ⟨e, he⟩ := (mkBallot_error_iff nr).mpr hbad
        rw [hmk] at he
        exact Except.noConfusion he

/-- Witness for C10: a present voter type with an empty new ranking is
rejected. -/
theorem simulate_validation_gated_witness :
    ∃ e, simulate_election_with_modified_ballots [⟨["A"]⟩] ⟨["A"]⟩ []
      (fun b _ => b.length) ["A"] = Except.error e :=
  ((simulate_validation_gated [⟨["A"]⟩] ⟨["A"]⟩ [] (fun b _ => b.length) ["A"]).2
    (by decide)).mpr (Or.inl rfl)

/-- C7: the modelled Condorcet detector returns `some C` exactly when `C`
is a candidate who strictly wins every head-to-head matchup, and `none`
otherwise; it is a total function. -/
theorem find_condorcet_winner_spec (ballots : List Ballot) (candidates : List String)
    (C : String) :
    find_condorcet_winner ballots candidates = some C ↔
      (C ∈ candidates ∧ ∀ D ∈ candidates, D ≠ C →
        countPrefers ballots D C < countPrefers ballots C D) := by
  unfold find_condorcet_winner
  constructor
  · intro h
    have hmem := List.mem_of_find?_eq_some h
    have hp := List.find?_some h
    refine ⟨hmem, ?_⟩
    intro D hD hDC
    have hd := (List.all_eq_true.mp hp) D hD
    simpa [hDC] using hd
  · rintro ⟨hC, hbeats⟩
    have hpredC : (candidates.all fun d =>
        d == C || decide (countPrefers ballots d C < countPrefers ballots C d)) = true := by
      apply List.all_eq_true.mpr
      intro d hd
      by_cases hdC : d = C
      · simp [hdC]
      · simp [hdC, hbeats d hd hdC]
    have huniq : ∀ x ∈ candidates, (candidates.all fun d =>
        d == x || decide (countPrefers ballots d x < countPrefers ballots x d)) = true →
        x = C := by
      intro x hx hax
      by_contra hxC
      have h1 := (List.all_eq_true.mp hax) C hC
      have hCx : ¬ (C = x) := fun h => hxC h.symm
      simp [hCx] at h1
      have h2 := hbeats x hx hxC
      omega
    have hsome : (candidates.find? fun c => candidates.all fun d =>
        d == c || decide (countPrefers ballots d c < countPrefers ballots c d)).isSome :=
      List.find?_isSome.mpr ⟨C, hC, hpredC⟩
    obtain ⟨x, hx⟩ := Option.isSome_iff_exists.mp hsome
    have hpx := List.find?_some hx
    have hxeq : x = C := huniq x (List.mem_of_find?_eq_some hx) hpx
    rw [hx, hxeq]

/-- Witness for C7 on a concrete election with Condorcet winner `A`. -/
theorem find_condorcet_winner_spec_witness :
    find_condorcet_winner [⟨["A", "B", "C"]⟩, ⟨["A", "C", "B"]⟩, ⟨["B", "A", "C"]⟩]
      ["A", "B", "C"] = some "A" :=
  (find_condorcet_winner_spec [⟨["A", "B", "C"]⟩, ⟨["A", "C", "B"]⟩, ⟨["B", "A", "C"]⟩]
    ["A", "B", "C"] "A").mpr ⟨by decide, by decide⟩

/-- C4: on a valid election with at least one candidate, `schulze`
returns a result (raises nothing) and its winner list is non-empty. -/
theorem schulze_total_and_nonempty (ballots : List Ballot) (candidates : List String)
    (hne : candidates ≠ []) (_hnd : candidates.Nodup)
    (_hv : ∀ bl ∈ ballots, ∀ c ∈ candidates, c ∈ bl.ranking) :
    ∃ winners scores, schulze ballots candidates = some (winners, scores) ∧
      winners ≠ [] := by
  have hmapne : (candidates.map (schulzeScore ballots candidates)) ≠ [] := by
    simp [hne]
  have hmax : (candidates.map (schulzeScore ballots candidates)).max? ≠ none := by
    simp [List.max?_eq_none_iff, hne]
  obtain ⟨m, hm⟩ := Option.ne_none_iff_exists'.mp hmax
  refine ⟨candidates.filter (fun c => schulzeScore ballots candidates c == m),
          candidates.map (fun c => (c, schulzeScore ballots candidates c)), ?_, ?_⟩
  · unfold schulze
    rw [hm]
  · have hmm : m ∈ candidates.map (schulzeScore ballots candidates) :=
      List.max?_mem (fun a b => max_choice a b) hm
    obtain ⟨c, hcmem, hcs⟩ := List.mem_map.mp hmm
    apply List.ne_nil_of_mem (a := c)
    apply List.mem_filter.mpr
    exact ⟨hcmem, by simp [hcs]⟩

/-- Witness for C4 on a concrete one-ballot, two-candidate election. -/
theorem schulze_total_and_nonempty_witness :
    ∃ winners scores, schulze [⟨["A", "B"]⟩] ["A", "B"] = some (winners, scores) ∧
      winners ≠ [] :=
  schulze_total_and_nonempty [⟨["A", "B"]⟩] ["A", "B"] (by decide) (by decide)
    (by decide)

/-! Correctness of the Schulze closure as an all-pairs widest-path
computation (claims C1 and C2). -/

theorem pathStrength_append (w : String → String → Nat) (xs : List String)
    (y : String) (ys : List String) :
    ∀ (a b : String), pathStrength w a (xs ++ y :: ys) b =
      min (pathStrength w a xs y) (pathStrength w y ys b) := by
  induction xs with
  | nil => intro a b; rfl
  | cons x xs ih =>
    intro a b
    show min (w a x) (pathStrength w x (xs ++ y :: ys) b) = _
    rw [ih x b]
    show _ = min (min (w a x) (pathStrength w x xs y)) (pathStrength w y ys b)
    rw [Nat.min_assoc]

theorem pathStrength_le_last (w : String → String → Nat) (mid : List String) :
    ∀ (a b : String), pathStrength w a mid b ≤ w (mid.getLastD a) b := by
  induction mid with
  | nil => intro a b; exact Nat.le_refl _
  | cons x xs ih =>
    intro a b
    rw [List.getLastD_cons]
    exact Nat.le_trans (Nat.min_le_right _ _) (ih x b)

theorem getLastD_mem_of (cands : List String) (mid : List String) :
    ∀ a ∈ cands, (∀ x ∈ mid, x ∈ cands) → mid.getLastD a ∈ cands := by
  induction mid with
  | nil => intro a ha _; exact ha
  | cons x xs ih =>
    intro a _ hmid
    rw [List.getLastD_cons]
    exact ih x (hmid x (List.mem_cons_self x xs)) (fun y hy => hmid y (List.mem_cons_of_mem x hy))

theorem schulzeInner_cons (k i j : String) (p : String × String → Nat)
    (rest : List String) :
    schulzeInner k i p (j :: rest) =
      schulzeInner k i
        (if j = i ∨ j = k then p
         else updPair p i j (max (p (i, j)) (min (p (i, k)) (p (k, j))))) rest := by
  simp only [schulzeInner, List.foldl_cons]

/-- The innermost loop of the closure only writes the pairs `(i, j)` for
`j` in its list and never the pairs it reads, so it equals a pointwise
simultaneous relaxation. -/
theorem schulzeInner_eq (k i : String) (js : List String) :
    ∀ (p : String × String → Nat), js.Nodup → i ≠ k → ∀ a b : String,
      schulzeInner k i p js (a, b) =
        if a = i ∧ b ∈ js ∧ b ≠ i ∧ b ≠ k
        then max (p (a, b)) (min (p (i, k)) (p (k, b)))
        else p (a, b) := by
  induction js with
  | nil =>
    intro p _ _ a b
    simp [schulzeInner]
  | cons j rest ih =>
    intro p hnd hik a b
    have hjr : j ∉ rest := (List.nodup_cons.mp hnd).1
    have hr : rest.Nodup := (List.nodup_cons.mp hnd).2
    rw [schulzeInner_cons]
    by_cases hj : j = i ∨ j = k
    · rw [if_pos hj, ih p hr hik a b]
      apply if_congr _ rfl rfl
      constructor
      · rintro ⟨ha, hb, hbi, hbk⟩
        exact ⟨ha, List.mem_cons_of_mem j hb, hbi, hbk⟩
      · rintro ⟨ha, hb, hbi, hbk⟩
        rcases List.mem_cons.mp hb with hbj | hb
        · subst hbj
          rcases hj with h | h
          · exact absurd h hbi
          · exact absurd h hbk
        · exact ⟨ha, hb, hbi, hbk⟩
    · rw [if_neg hj]
      have hji : j ≠ i := fun h => hj (Or.inl h)
      have hjk : j ≠ k := fun h => hj (Or.inr h)
      rw [ih _ hr hik a b]
      have hik' : updPair p i j (max (p (i, j)) (min (p (i, k)) (p (k, j)))) (i, k) = p (i, k) := by
        unfold updPair
        rw [if_neg]
        intro h
        rw [Prod.mk.injEq] at h
        exact hjk h.2.symm
      have hkb : ∀ c, updPair p i j (max (p (i, j)) (min (p (i, k)) (p (k, j)))) (k, c) = p (k, c) := by
        intro c
        unfold updPair
        rw [if_neg]
        intro h
        rw [Prod.mk.injEq] at h
        exact hik h.1.symm
      by_cases hcond : a = i ∧ b ∈ j :: rest ∧ b ≠ i ∧ b ≠ k
      · rw [if_pos hcond]
        obtain ⟨hai, hbm, hbi, hbk⟩ := hcond
        rcases List.mem_cons.mp hbm with hbj | hbrest
        · subst hbj
          rw [if_neg (fun hc => hjr hc.2.1)]
          subst hai
          simp [updPair]
        · rw [if_pos ⟨hai, hbrest, hbi, hbk⟩, hik', hkb]
          have hbj : b ≠ j := fun h => hjr (h ▸ hbrest)
          have hupd : updPair p i j (max (p (i, j)) (min (p (i, k)) (p (k, j)))) (a, b) = p (a, b) := by
            unfold updPair
            rw [if_neg]
            intro h
            rw [Prod.mk.injEq] at h
            exact hbj h.2
          rw [hupd]
      · rw [if_neg hcond,
            if_neg (fun hc => hcond ⟨hc.1, List.mem_cons_of_mem j hc.2.1, hc.2.2⟩)]
        have hne : (a, b) ≠ (i, j) := by
          intro h
          rw [Prod.mk.injEq] at h
          exact hcond ⟨h.1, h.2 ▸ List.mem_cons_self j rest, h.2 ▸ hji, h.2 ▸ hjk⟩
        simp [updPair, hne]

theorem schulzeMiddle_cons (js : List String) (k i : String)
    (p : String × String → Nat) (rest : List String) :
    schulzeMiddle js k p (i :: rest) =
      schulzeMiddle js k (if i = k then p else schulzeInner k i p js) rest := by
  simp only [schulzeMiddle, List.foldl_cons]

/-- The middle loop writes only pairs whose first component is the
current `i` and reads only pairs untouched by previous iterations, so
the whole round over intermediate `k` is a pointwise simultaneous
relaxation through `k`. -/
theorem schulzeMiddle_eq (js : List String) (k : String) (hjnd : js.Nodup) :
    ∀ (is : List String), is.Nodup → ∀ (p : String × String → Nat) (a b : String),
      schulzeMiddle js k p is (a, b) =
        if a ∈ is ∧ a ≠ k ∧ b ∈ js ∧ b ≠ a ∧ b ≠ k
        then max (p (a, b)) (min (p (a, k)) (p (k, b)))
        else p (a, b) := by
  intro is
  induction is with
  | nil =>
    intro _ p a b
    simp [schulzeMiddle]
  | cons i rest ih =>
    intro hnd p a b
    have hir : i ∉ rest := (List.nodup_cons.mp hnd).1
    have hr : rest.Nodup := (List.nodup_cons.mp hnd).2
    rw [schulzeMiddle_cons]
    by_cases hik : i = k
    · rw [if_pos hik, ih hr p a b]
      apply if_congr _ rfl rfl
      constructor
      · rintro ⟨ha, hrest⟩
        exact ⟨List.mem_cons_of_mem i ha, hrest⟩
      · rintro ⟨ha, hak, hrest⟩
        rcases List.mem_cons.mp ha with hai | hai
        · exact absurd (hai.trans hik) hak
        · exact ⟨hai, hak, hrest⟩
    · rw [if_neg hik, ih hr _ a b]
      have hread1 : schulzeInner k i p js (a, k) = p (a, k) := by
        rw [schulzeInner_eq k i js p hjnd hik a k]
        exact if_neg (fun hc => hc.2.2.2 rfl)
      have hread2 : schulzeInner k i p js (k, b) = p (k, b) := by
        rw [schulzeInner_eq k i js p hjnd hik k b]
        exact if_neg (fun hc => hik hc.1.symm)
      by_cases hcond : a ∈ i :: rest ∧ a ≠ k ∧ b ∈ js ∧ b ≠ a ∧ b ≠ k
      · rw [if_pos hcond]
        obtain ⟨ham, hak, hbjs, hba, hbk⟩ := hcond
        rcases List.mem_cons.mp ham with hai | harest
        · rw [if_neg (fun hc => hir (hai ▸ hc.1)), schulzeInner_eq k i js p hjnd hik a b]
          rw [if_pos ⟨hai, hbjs, hai ▸ hba, hbk⟩]
          rw [hai]
        · rw [if_pos ⟨harest, hak, hbjs, hba, hbk⟩, hread1, hread2,
              schulzeInner_eq k i js p hjnd hik a b]
          have hai : a ≠ i := fun h => hir (h ▸ harest)
          rw [if_neg (fun hc => hai hc.1)]
      · rw [if_neg hcond,
            if_neg (fun hc => hcond ⟨List.mem_cons_of_mem i hc.1, hc.2⟩)]
        rw [schulzeInner_eq k i js p hjnd hik a b]
        apply if_neg
        rintro ⟨hai, hbjs, hbi, hbk⟩
        exact hcond ⟨hai ▸ List.mem_cons_self i rest, hai ▸ hik, hbjs, hai ▸ hbi, hbk⟩

theorem le_schulzeMiddle (cands : List String) (hnd : cands.Nodup) (k : String)
    (p : String × String → Nat) (q : String × String) :
    p q ≤ schulzeMiddle cands k p cands q := by
  obtain ⟨a, b⟩ := q
  rw [schulzeMiddle_eq cands k hnd cands hnd p a b]
  by_cases h : a ∈ cands ∧ a ≠ k ∧ b ∈ cands ∧ b ≠ a ∧ b ≠ k
  · rw [if_pos h]
    exact Nat.le_max_left _ _
  · rw [if_neg h]

/-- One closure round through intermediate `k` preserves path
soundness, extending the allowed intermediates by `k`. -/
theorem round_sound (cands : List String) (hnd : cands.Nodup)
    (w : String → String → Nat) (k : String) (hk : k ∈ cands) (ks : List String)
    (p : String × String → Nat) (hs : SoundPaths w cands ks p) :
    SoundPaths w cands (k :: ks) (schulzeMiddle cands k p cands) := by
  intro a ha b hb hab
  rw [schulzeMiddle_eq cands k hnd cands hnd p a b]
  by_cases hcond : a ∈ cands ∧ a ≠ k ∧ b ∈ cands ∧ b ≠ a ∧ b ≠ k
  · rw [if_pos hcond]
    obtain ⟨-, hak, -, hba, hbk⟩ := hcond
    rcases max_choice (p (a, b)) (min (p (a, k)) (p (k, b))) with hmax | hmax
    · obtain ⟨mid, hmid, hstr⟩ := hs a ha b hb hab
      exact ⟨mid, fun x hx => List.mem_cons_of_mem k (hmid x hx), by rw [hstr, hmax]⟩
    · obtain ⟨mid1, hmid1, hstr1⟩ := hs a ha k hk hak
      obtain ⟨mid2, hmid2, hstr2⟩ := hs k hk b hb (fun h => hbk h.symm)
      refine ⟨mid1 ++ k :: mid2, ?_, ?_⟩
      · intro x hx
        rcases List.mem_append.mp hx with hx | hx
        · exact List.mem_cons_of_mem k (hmid1 x hx)
        · rcases List.mem_cons.mp hx with hx | hx
          · exact hx ▸ List.mem_cons_self k ks
          · exact List.mem_cons_of_mem k (hmid2 x hx)
      · rw [pathStrength_append w mid1 k mid2 a b, hstr1, hstr2, hmax]
  · rw [if_neg hcond]
    obtain ⟨mid, hmid, hstr⟩ := hs a ha b hb hab
    exact ⟨mid, fun x hx => List.mem_cons_of_mem k (hmid x hx), hstr⟩

/-- One closure round through intermediate `k` preserves path
completeness: every path whose intermediates additionally may use `k`
is bounded by the relaxed strengths.  Proved by strong induction on
the path length, splitting at an occurrence of `k`. -/
theorem round_complete (cands : List String) (hnd : cands.Nodup)
    (w : String → String → Nat) (k : String) (hk : k ∈ cands) (ks : List String)
    (p : String × String → Nat) (hc : CompletePaths w cands ks p) :
    CompletePaths w cands (k :: ks) (schulzeMiddle cands k p cands) := by
  have main : ∀ n (mid : List String), mid.length = n → ∀ a ∈ cands, ∀ b ∈ cands,
      a ≠ b → (∀ x ∈ mid, x ∈ k :: ks) →
      pathStrength w a mid b ≤ schulzeMiddle cands k p cands (a, b) := by
    intro n
    induction n using Nat.strongRecOn with
    | ind n ih =>
      intro mid hlen a ha b hb hab hmid
      by_cases hkmid : k ∈ mid
      · obtain ⟨xs, ys, hsplit⟩ := List.append_of_mem hkmid
        subst hsplit
        rw [pathStrength_append w xs k ys a b]
        have hxslen : xs.length < n := by
          rw [← hlen]
          simp only [List.length_append, List.length_cons]
          omega
        have hyslen : ys.length < n := by
          rw [← hlen]
          simp only [List.length_append, List.length_cons]
          omega
        have hxs : ∀ x ∈ xs, x ∈ k :: ks := fun x hx => hmid x (by simp [hx])
        have hys : ∀ x ∈ ys, x ∈ k :: ks := fun x hx => hmid x (by simp [hx])
        by_cases hak : a = k
        · subst hak
          have hyb := ih ys.length hyslen ys rfl a ha b hb hab hys
          exact Nat.le_trans (Nat.min_le_right _ _) hyb
        · by_cases hbk : b = k
          · subst hbk
            have hxa := ih xs.length hxslen xs rfl a ha b hb hab hxs
            exact Nat.le_trans (Nat.min_le_left _ _) hxa
          · have hxa : pathStrength w a xs k ≤ schulzeMiddle cands k p cands (a, k) :=
              ih xs.length hxslen xs rfl a ha k hk hak hxs
            have hyb : pathStrength w k ys b ≤ schulzeMiddle cands k p cands (k, b) :=
              ih ys.length hyslen ys rfl k hk b hb (fun h => hbk h.symm) hys
            have hout1 : schulzeMiddle cands k p cands (a, k) = p (a, k) := by
              rw [schulzeMiddle_eq cands k hnd cands hnd p a k]
              exact if_neg (fun hcd => hcd.2.2.2.2 rfl)
            have hout2 : schulzeMiddle cands k p cands (k, b) = p (k, b) := by
              rw [schulzeMiddle_eq cands k hnd cands hnd p k b]
              exact if_neg (fun hcd => hcd.2.1 rfl)
            rw [hout1] at hxa
            rw [hout2] at hyb
            have hin : schulzeMiddle cands k p cands (a, b) =
                max (p (a, b)) (min (p (a, k)) (p (k, b))) := by
              rw [schulzeMiddle_eq cands k hnd cands hnd p a b]
              exact if_pos ⟨ha, hak, hb, fun h => hab h.symm, hbk⟩
            rw [hin]
            calc min (pathStrength w a xs k) (pathStrength w k ys b)
                ≤ min (p (a, k)) (p (k, b)) := min_le_min hxa hyb
              _ ≤ max (p (a, b)) (min (p (a, k)) (p (k, b))) := Nat.le_max_right _ _
      · have hmid' : ∀ x ∈ mid, x ∈ ks := by
          intro x hx
          rcases List.mem_cons.mp (hmid x hx) with h | h
          · exact absurd (h ▸ hx) hkmid
          · exact h
        exact Nat.le_trans (hc a ha b hb hab mid hmid')
          (le_schulzeMiddle cands hnd k p (a, b))
  intro a ha b hb hab mid hmid
  exact main mid.length mid rfl a ha b hb hab hmid

/-- Folding closure rounds over an intermediate list preserves the sound
and complete path invariants, accumulating the processed intermediates. -/
theorem closure_fold_invariant (cands : List String) (hnd : cands.Nodup)
    (w : String → String → Nat) :
    ∀ (l : List String), (∀ x ∈ l, x ∈ cands) →
    ∀ (ks : List String) (p : String × String → Nat),
      SoundPaths w cands ks p → CompletePaths w cands ks p →
      SoundPaths w cands (l.reverse ++ ks)
        (l.foldl (fun p k => schulzeMiddle cands k p cands) p) ∧
      CompletePaths w cands (l.reverse ++ ks)
        (l.foldl (fun p k => schulzeMiddle cands k p cands) p) := by
  intro l
  induction l with
  | nil =>
    intro _ ks p hs hc
    simpa using ⟨hs, hc⟩
  | cons k rest ih =>
    intro hl ks p hs hc
    have hk : k ∈ cands := hl k (List.mem_cons_self k rest)
    have hrest : ∀ x ∈ rest, x ∈ cands := fun x hx => hl x (List.mem_cons_of_mem k hx)
    have h1 := round_sound cands hnd w k hk ks p hs
    have h2 := round_complete cands hnd w k hk ks p hc
    have hih := ih hrest (k :: ks) (schulzeMiddle cands k p cands) h1 h2
    rw [List.foldl_cons, List.reverse_cons, List.append_assoc]
    exact hih

/-- The closed strength matrix is attained by real paths through the
candidate list. -/
theorem schulzeStrength_sound (ballots : List Ballot) (candidates : List String)
    (hnd : candidates.Nodup) :
    SoundPaths (directStrength ballots) candidates candidates
      (schulzeStrength ballots candidates) := by
  have hinit_s : SoundPaths (directStrength ballots) candidates []
      (fun q => directStrength ballots q.1 q.2) :=
    fun a _ b _ _ => ⟨[], by simp, rfl⟩
  have hinit_c : CompletePaths (directStrength ballots) candidates []
      (fun q => directStrength ballots q.1 q.2) := by
    intro a _ b _ _ mid hmid
    cases mid with
    | nil => exact Nat.le_refl _
    | cons x xs => exact absurd (hmid x (List.mem_cons_self x xs)) (List.not_mem_nil x)
  obtain ⟨hs, -⟩ := closure_fold_invariant candidates hnd (directStrength ballots)
    candidates (fun x hx => hx) [] _ hinit_s hinit_c
  intro a ha b hb hab
  obtain ⟨mid, hmid, hstr⟩ := hs a ha b hb hab
  exact ⟨mid, fun x hx => by simpa using hmid x hx, hstr⟩

/-- The closed strength matrix bounds the strength of every path through
the candidate list. -/
theorem schulzeStrength_complete (ballots : List Ballot) (candidates : List String)
    (hnd : candidates.Nodup) :
    CompletePaths (directStrength ballots) candidates candidates
      (schulzeStrength ballots candidates) := by
  have hinit_s : SoundPaths (directStrength ballots) candidates []
      (fun q => directStrength ballots q.1 q.2) :=
    fun a _ b _ _ => ⟨[], by simp, rfl⟩
  have hinit_c : CompletePaths (directStrength ballots) candidates []
      (fun q => directStrength ballots q.1 q.2) := by
    intro a _ b _ _ mid hmid
    cases mid with
    | nil => exact Nat.le_refl _
    | cons x xs => exact absurd (hmid x (List.mem_cons_self x xs)) (List.not_mem_nil x)
  obtain ⟨-, hc⟩ := closure_fold_invariant candidates hnd (directStrength ballots)
    candidates (fun x hx => hx) [] _ hinit_s hinit_c
  intro a ha b hb hab mid hmid
  exact hc a ha b hb hab mid (fun x hx => by simpa using hmid x hx)

/-- C1: on a valid election, after the closure loop the stored strength
of every ordered pair of distinct candidates equals the maximum over all
directed paths (intermediate candidates drawn from the candidate list)
of the minimum single-hop margin `directStrength` along the path: every
such path is bounded by the stored value, and some such path attains
it. -/
theorem schulze_closure_widest_path (ballots : List Ballot) (candidates : List String)
    (_hne : candidates ≠ []) (hnd : candidates.Nodup)
    (_hperm : ∀ bl ∈ ballots, bl.ranking.Perm candidates)
    (A : String) (hA : A ∈ candidates) (B : String) (hB : B ∈ candidates)
    (hAB : A ≠ B) :
    (∀ mid, (∀ x ∈ mid, x ∈ candidates) →
      pathStrength (directStrength ballots) A mid B ≤
        schulzeStrength ballots candidates (A, B)) ∧
    (∃ mid, (∀ x ∈ mid, x ∈ candidates) ∧
      pathStrength (directStrength ballots) A mid B =
        schulzeStrength ballots candidates (A, B)) :=
  ⟨fun mid hmid =>
    schulzeStrength_complete ballots candidates hnd A hA B hB hAB mid hmid,
   schulzeStrength_sound ballots candidates hnd A hA B hB hAB⟩

theorem countP_ne_of_nodup (c : String) :
    ∀ (l : List String), l.Nodup → c ∈ l →
      l.countP (fun j => decide (j ≠ c)) + 1 = l.length := by
  intro l
  induction l with
  | nil => intro _ hc; exact absurd hc (List.not_mem_nil c)
  | cons x xs ih =>
    intro hnd hc
    have hxxs : x ∉ xs := (List.nodup_cons.mp hnd).1
    have hxs : xs.Nodup := (List.nodup_cons.mp hnd).2
    by_cases hxc : x = c
    · subst hxc
      rw [List.countP_cons_of_neg _ _ (by simp)]
      have hall : xs.countP (fun j => decide (j ≠ x)) = xs.length :=
        List.countP_eq_length.mpr (fun y hy => by
          simp only [decide_eq_true_eq]
          exact fun h => hxxs (h ▸ hy))
      rw [hall, List.length_cons]
    · have hcxs : c ∈ xs := by
        rcases List.mem_cons.mp hc with h | h
        · exact absurd h.symm hxc
        · exact h
      rw [List.countP_cons_of_pos _ _ (by simp [hxc]), List.length_cons]
      rw [Nat.add_right_comm]
      rw [ih hxs hcxs]

theorem filter_eq_singleton (c : String) (p : String → Bool) (hpc : p c = true) :
    ∀ (l : List String), l.Nodup → c ∈ l → (∀ x ∈ l, x ≠ c → p x = false) →
      l.filter p = [c] := by
  intro l
  induction l with
  | nil => intro _ hc _; exact absurd hc (List.not_mem_nil c)
  | cons x xs ih =>
    intro hnd hc hother
    have hxxs : x ∉ xs := (List.nodup_cons.mp hnd).1
    have hxs : xs.Nodup := (List.nodup_cons.mp hnd).2
    by_cases hxc : x = c
    · subst hxc
      rw [List.filter_cons_of_pos hpc]
      have hnil : xs.filter p = [] := List.filter_eq_nil_iff.mpr (fun y hy => by
        have hyc : y ≠ x := fun h => hxxs (h ▸ hy)
        simp [hother y (List.mem_cons_of_mem _ hy) hyc])
      rw [hnil]
    · have hcxs : c ∈ xs := by
        rcases List.mem_cons.mp hc with h | h
        · exact absurd h.symm hxc
        · exact h
      rw [List.filter_cons_of_neg]
      · exact ih hxs hcxs (fun y hy hyc => hother y (List.mem_cons_of_mem _ hy) hyc)
      · simp [hother x (List.mem_cons_self x xs) hxc]

/-- C2: on a valid election whose head-to-head matrix has a Condorcet
winner `C`, the Schulze winner list is exactly `[C]`. -/
theorem schulze_condorcet_consistent (ballots : List Ballot) (candidates : List String)
    (hnd : candidates.Nodup)
    (_hperm : ∀ bl ∈ ballots, bl.ranking.Perm candidates)
    (C : String) (hC : C ∈ candidates)
    (hcw : ∀ D ∈ candidates, D ≠ C →
      countPrefers ballots D C < countPrefers ballots C D) :
    ∃ scores, schulze ballots candidates = some ([C], scores) := by
  have hintoC : ∀ X ∈ candidates, X ≠ C →
      schulzeStrength ballots candidates (X, C) = 0 := by
    intro X hX hXC
    obtain ⟨mid, hmid, hstr⟩ :=
      schulzeStrength_sound ballots candidates hnd X hX C hC hXC
    have hlast : mid.getLastD X ∈ candidates := getLastD_mem_of candidates mid X hX hmid
    have hwlast : directStrength ballots (mid.getLastD X) C = 0 := by
      by_cases hyc : mid.getLastD X = C
      · rw [hyc]
        simp [directStrength]
      · have hy := hcw (mid.getLastD X) hlast hyc
        unfold directStrength
        rw [if_neg (by omega)]
    have hle : pathStrength (directStrength ballots) X mid C ≤ 0 :=
      hwlast ▸ pathStrength_le_last (directStrength ballots) mid X C
    rw [← hstr]
    exact Nat.le_zero.mp hle
  have hfromC : ∀ X ∈ candidates, X ≠ C →
      0 < schulzeStrength ballots candidates (C, X) := by
    intro X hX hXC
    have hdir : pathStrength (directStrength ballots) C [] X ≤
        schulzeStrength ballots candidates (C, X) :=
      schulzeStrength_complete ballots candidates hnd C hC X hX
        (fun h => hXC h.symm) [] (by simp)
    have hwCX : 0 < directStrength ballots C X := by
      have hx := hcw X hX hXC
      unfold directStrength
      rw [if_pos hx]
      omega
    exact Nat.lt_of_lt_of_le hwCX hdir
  have hCeq : schulzeScore ballots candidates C =
      candidates.countP (fun j => decide (j ≠ C)) := by
    unfold schulzeScore
    apply List.countP_congr
    intro j hj
    simp only [Bool.and_eq_true, decide_eq_true_eq]
    constructor
    · rintro ⟨h1, -⟩
      exact fun h => h1 h.symm
    · intro hjC
      refine ⟨fun h => hjC h.symm, ?_⟩
      rw [hintoC j hj hjC]
      exact hfromC j hj hjC
  have hscoreC : schulzeScore ballots candidates C + 1 = candidates.length := by
    rw [hCeq]
    exact countP_ne_of_nodup C candidates hnd hC
  have hscoreD : ∀ D ∈ candidates, D ≠ C →
      schulzeScore ballots candidates D < schulzeScore ballots candidates C := by
    intro D hD hDC
    have hmono : schulzeScore ballots candidates D ≤
        candidates.countP (fun j => decide (j ≠ C) && decide (j ≠ D)) := by
      unfold schulzeScore
      apply List.countP_mono_left
      intro j hj hjp
      simp only [Bool.and_eq_true, decide_eq_true_eq] at hjp ⊢
      obtain ⟨hDj, hlt⟩ := hjp
      refine ⟨?_, fun h => hDj h.symm⟩
      intro hjC
      rw [hjC, hintoC D hD hDC] at hlt
      omega
    have hfilter : candidates.countP (fun j => decide (j ≠ C) && decide (j ≠ D)) =
        (candidates.filter (fun j => decide (j ≠ C))).countP (fun j => decide (j ≠ D)) := by
      rw [List.countP_filter]
      apply List.countP_congr
      intro j hj
      simp [Bool.and_comm]
    have hnd' : (candidates.filter (fun j => decide (j ≠ C))).Nodup :=
      hnd.filter _
    have hDmem : D ∈ candidates.filter (fun j => decide (j ≠ C)) :=
      List.mem_filter.mpr ⟨hD, by simp [hDC]⟩
    have hsub : (candidates.filter (fun j => decide (j ≠ C))).countP
        (fun j => decide (j ≠ D)) + 1 =
        candidates.countP (fun j => decide (j ≠ C)) := by
      rw [countP_ne_of_nodup D _ hnd' hDmem]
      rw [List.countP_eq_length_filter]
    rw [hCeq]
    omega
  have hcne : candidates ≠ [] := List.ne_nil_of_mem hC
  have hmax : (candidates.map (schulzeScore ballots candidates)).max? ≠ none := by
    simp [List.max?_eq_none_iff, hcne]
  obtain ⟨m, hm⟩ := Option.ne_none_iff_exists'.mp hmax
  have hub : ∀ x ∈ candidates.map (schulzeScore ballots candidates), x ≤ m :=
    (List.max?_le_iff (fun a b c => Nat.max_le) hm).mp (Nat.le_refl m)
  have hmm : m ∈ candidates.map (schulzeScore ballots candidates) :=
    List.max?_mem (fun a b => max_choice a b) hm
  have hscoreCle : schulzeScore ballots candidates C ≤ m :=
    hub _ (List.mem_map_of_mem _ hC)
  have hmC : m = schulzeScore ballots candidates C := by
    obtain ⟨x, hx, hxm⟩ := List.mem_map.mp hmm
    by_cases hxC : x = C
    · rw [← hxm, hxC]
    · have hlt := hscoreD x hx hxC
      omega
  have hwin : candidates.filter
      (fun c => schulzeScore ballots candidates c == m) = [C] := by
    apply filter_eq_singleton C _ (by simp [hmC]) candidates hnd hC
    intro x hx hxC
    have hlt := hscoreD x hx hxC
    simp only [beq_eq_false_iff_ne, ne_eq, hmC]
    omega
  refine ⟨candidates.map (fun c => (c, schulzeScore ballots candidates c)), ?_⟩
  unfold schulze
  rw [hm]
  show some (candidates.filter (fun c => schulzeScore ballots candidates c == m),
      candidates.map (fun c => (c, schulzeScore ballots candidates c))) = _
  rw [hwin]

/-- Witness for C2 on a concrete election where `A` is the Condorcet
winner. -/
theorem schulze_condorcet_consistent_witness :
    ∃ scores, schulze [⟨["A", "B", "C"]⟩, ⟨["A", "C", "B"]⟩, ⟨["B", "A", "C"]⟩]
      ["A", "B", "C"] = some (["A"], scores) :=
  schulze_condorcet_consistent
    [⟨["A", "B", "C"]⟩, ⟨["A", "C", "B"]⟩, ⟨["B", "A", "C"]⟩] ["A", "B", "C"]
    (by decide) (by decide) "A" (by decide) (by decide)

/-- Witness for C1 on a concrete one-ballot, two-candidate election. -/
theorem schulze_closure_widest_path_witness :
    (∀ mid, (∀ x ∈ mid, x ∈ ["A", "B"]) →
      pathStrength (directStrength [⟨["A", "B"]⟩]) "A" mid "B" ≤
        schulzeStrength [⟨["A", "B"]⟩] ["A", "B"] ("A", "B")) ∧
    (∃ mid, (∀ x ∈ mid, x ∈ ["A", "B"]) ∧
      pathStrength (directStrength [⟨["A", "B"]⟩]) "A" mid "B" =
        schulzeStrength [⟨["A", "B"]⟩] ["A", "B"] ("A", "B")) :=
  schulze_closure_widest_path [⟨["A", "B"]⟩] ["A", "B"] (by decide) (by decide)
    (by decide) "A" (by decide) "B" (by decide) (by decide)

end Lab04
